import Mathlib

/-!
Shallow embedding of the audio preprocessing pipeline
(`prepro_noisegate_equalizer.py`, `prepro_window.py`, `preprocessing.py`,
`prepro_audioseparator.py`).  Samples and spectral magnitudes are modelled
as exact rationals; IEEE NaN is modelled explicitly as `none` in
`Option ℚ` where the numpy code can produce it; Python exceptions are
modelled with `Except`.
-/

namespace TestRepo

/-- Python `int()` applied to a real number: truncation toward zero
(`int(2.7) = 2`, `int(-2.7) = -2`).  Used at
`prepro_noisegate_equalizer.py` lines 36-37. -/
def pyInt (q : ℚ) : ℤ :=
  if 0 ≤ q then ⌊q⌋ else -⌊-q⌋

/-- Line 36: `chunk_size = int(chunk_duration * sr)`. -/
def chunk_size_of (chunkDuration sr : ℚ) : ℤ :=
  pyInt (chunkDuration * sr)

/-- Line 37: `hop_size = int(chunk_size * (1 - overlap_ratio))`. -/
def hop_size_of (chunkSize overlapRatio : ℚ) : ℤ :=
  pyInt (chunkSize * (1 - overlapRatio))

/-- Modelled from the spec: section 4.4 derives
`frame_length = round(frame_duration_s * sample_rate)` with rounding to
the nearest integer (the code itself uses `int()`); `round` in Mathlib is
floor of `q + 1/2`, agreeing with round-to-nearest away from ties. -/
def specRoundNearest (q : ℚ) : ℤ :=
  round q

/-- Lines 70-73: the per-frame gain rule, given the already-computed
`chunk_rms` and `threshold`:
`gain = 1.0 if chunk_rms > threshold else (chunk_rms / threshold) ** 2`. -/
def computeGain (chunkRms threshold : ℚ) : ℚ :=
  if threshold < chunkRms then 1 else (chunkRms / threshold) ^ 2

/-- Lines 105-114 of `prepro_noisegate_equalizer.py`: the forward walk of
`get_indices_around_peak`.  `fuel` is the remaining iterations of
`for i in range(search_width)`, `bin` is the current `new_bin`
(`peak_index + i`), `curVal` the running `cur_val`.  The loop breaks on
the array boundary or on the first strict increase, otherwise appends the
bin and continues with `cur_val = new_val`. -/
def walkUp (arr : List ℚ) (curVal : ℚ) (bin : ℕ) : ℕ → List ℕ
  | 0 => []
  | fuel + 1 =>
    if h : bin < arr.length then
      if curVal < arr.get ⟨bin, h⟩ then []
      else bin :: walkUp arr (arr.get ⟨bin, h⟩) (bin + 1) fuel
    else []

/-- Lines 116-126: the backward walk.  `bin` is `peak_index - i` as a
Python integer, so it can go negative, at which point the loop breaks.
The in-bounds check on the list access is vacuous whenever the walk was
started at a valid peak index (in Python an out-of-range `peak_index`
would raise `IndexError`; here that unreachable branch returns `[]`). -/
def walkDown (arr : List ℚ) (curVal : ℚ) (bin : ℤ) : ℕ → List ℕ
  | 0 => []
  | fuel + 1 =>
    if bin < 0 then []
    else
      if h : bin.toNat < arr.length then
        if curVal < arr.get ⟨bin.toNat, h⟩ then []
        else bin.toNat :: walkDown arr (arr.get ⟨bin.toNat, h⟩) (bin - 1) fuel
      else []

/-- Lines 90-128: `get_indices_around_peak(arr, peak_index, search_width=1000)`.
Both directional walks start their comparison from `mag_max = arr[peak_index]`;
the result is `set(peak_bins)`, modelled as a `Finset ℕ`.  An out-of-range
`peak_index` would raise `IndexError` in Python, modelled as `none`. -/
def get_indices_around_peak (arr : List ℚ) (peakIndex : ℕ)
    (searchWidth : ℕ := 1000) : Option (Finset ℕ) :=
  if h : peakIndex < arr.length then
    let magMax := arr.get ⟨peakIndex, h⟩
    some ((walkUp arr magMax peakIndex searchWidth).toFinset ∪
          (walkDown arr magMax (peakIndex : ℤ) searchWidth).toFinset)
  else none

/-- numpy `np.argmax` over a 1-D array: index of the first occurrence of
the maximum value (line 54).  Defined as 0 on the empty list, where numpy
would raise. -/
def npArgmax (l : List ℚ) : ℕ :=
  match l with
  | [] => 0
  | x :: xs => List.indexOf ((x :: xs).foldl max x) (x :: xs)

/-- numpy `np.median` of a 1-D array (line 60): sort, then take the middle
element (odd length) or the mean of the two middle elements (even length).
On an empty array numpy produces NaN (with a RuntimeWarning), modelled as
`none`. -/
def npMedian (l : List ℚ) : Option ℚ :=
  match l with
  | [] => none
  | _ =>
    let s := l.insertionSort (· ≤ ·)
    if l.length % 2 = 1 then some (s.getD (l.length / 2) 0)
    else some ((s.getD (l.length / 2 - 1) 0 + s.getD (l.length / 2) 0) / 2)

/-- Line 59: `noise_prepared[fund_indices] = 0` applied to a copy of the
power spectrum. -/
def zeroAtIndices (l : List ℚ) (s : Finset ℕ) : List ℚ :=
  l.mapIdx fun i x => if i ∈ s then 0 else x

/-- Lines 54-73 of `dynamic_noise_reduction`: the per-frame gain computed
from the power spectrum `ps` of the chunk and `meanSq = mean(chunk**2)`
(the square of `chunk_rms`, line 63).  The computation is carried in the
squared domain to stay inside ℚ: with `chunk_rms = sqrt meanSq ≥ 0`,
`noise_floor = sqrt noise_mean` and `threshold = noise_floor *
threshold_ratio` (lines 66-67, `threshold_ratio ≥ 0`), the Python test
`chunk_rms > threshold` is equivalent to `meanSq > noise_mean * ratio^2`
and `(chunk_rms / threshold)**2 = meanSq / (noise_mean * ratio^2)`.
NaN is modelled as `none`: `np.median` of an empty selection is NaN,
`np.sqrt` of a negative number is NaN, and `0.0/0.0` is NaN; each
propagates through the remaining arithmetic.  `meanSq` is a mean of
squares, hence nonnegative in every reachable call. -/
def frameGainSq (ps : List ℚ) (meanSq thresholdRatio : ℚ) : Option ℚ :=
  (get_indices_around_peak ps (npArgmax ps)).bind fun fundIndices =>
    (npMedian ((zeroAtIndices ps fundIndices).filter (· ≠ 0))).bind
      fun noiseMean =>
        if noiseMean < 0 then none
        else
          let thresholdSq := noiseMean * thresholdRatio ^ 2
          if thresholdSq < meanSq then some 1
          else if thresholdSq = 0 then none
          else some (meanSq / thresholdSq)

/-- Line 63 in squared form: `mean(chunk**2)`, the square of `chunk_rms`.
numpy would give NaN on an empty chunk; every reachable chunk has length
`chunk_size ≥ 1`. -/
def meanSquare (chunk : List ℚ) : ℚ :=
  (chunk.map (fun x => x ^ 2)).sum / chunk.length

/-- IEEE addition with NaN modelled as `none`: NaN propagates. -/
def oadd : Option ℚ → Option ℚ → Option ℚ
  | some a, some b => some (a + b)
  | _, _ => none

/-- IEEE multiplication with NaN modelled as `none`: NaN propagates. -/
def omul : Option ℚ → Option ℚ → Option ℚ
  | some a, some b => some (a * b)
  | _, _ => none

/-- IEEE division with NaN modelled as `none`.  Division by exact zero is
also mapped to `none`; in `dynamic_noise_reduction` the divisor has been
clamped to at least `1e-8` (line 85), so that branch is unreachable
there. -/
def odiv : Option ℚ → Option ℚ → Option ℚ
  | some a, some b => if b = 0 then none else some (a / b)
  | _, _ => none

/-- `np.maximum` against a constant: `np.maximum(NaN, c)` is NaN. -/
def omax (x : Option ℚ) (c : ℚ) : Option ℚ :=
  match x with
  | some a => some (max a c)
  | none => none

/-- numpy slice accumulation `out[start:start+len(vals)] += vals`
(lines 81-82 of `prepro_noisegate_equalizer.py`, lines 54-56 of
`prepro_window.py`).  Every reachable call has the slice fully inside
`out`, so the length of `out` is unchanged.  The `getD` default is never
used: the index is guarded by the membership condition. -/
def sliceAdd {α : Type} (add : α → α → α) (out : List α) (start : ℕ)
    (vals : List α) : List α :=
  out.mapIdx fun j y =>
    if start ≤ j ∧ j < start + vals.length then add y (vals.getD (j - start) y)
    else y

/-- `librosa.util.frame(audio, frame_length, hop_length)` (line 40): when
the input is shorter than one frame it raises
`ParameterError("Input is too short ...")`; a non-positive hop raises as
well.  Otherwise it yields `1 + (len - frame_length) // hop_length`
frames, frame `i` starting at `i * hop_length`. -/
def librosaFrame (x : List ℚ) (frameLength hopLength : ℕ) :
    Except String (List (List ℚ)) :=
  if x.length < frameLength ∨ frameLength = 0 then
    Except.error "librosa.util.frame: input is too short"
  else if hopLength = 0 then
    Except.error "librosa.util.frame: invalid hop_length"
  else
    Except.ok ((List.range (1 + (x.length - frameLength) / hopLength)).map
      fun i => (x.drop (i * hopLength)).take frameLength)

/-- Lines 50-73 for one chunk: the spectral pipeline followed by the gain
rule; the periodogram (scipy, Kaiser window, external library) is a
parameter. -/
def dnrFrameGain (periodogram : List ℚ → List ℚ) (thresholdRatio : ℚ)
    (chunk : List ℚ) : Option ℚ :=
  frameGainSq (periodogram chunk) (meanSquare chunk) thresholdRatio

/-- Lines 47-82: the body of the loop `for i in range(frames.shape[1])`,
acting on the pair (processed_audio, gain_envelope): the chunk's gain is
computed, the windowed processed chunk is overlap-added into the output
slice and the Hann weights into the envelope slice. -/
def dnrStep (periodogram : List ℚ → List ℚ) (thresholdRatio : ℚ)
    (frames : List (List ℚ)) (win : List ℚ) (hopSize : ℕ)
    (acc : List (Option ℚ) × List (Option ℚ)) (i : ℕ) :
    List (Option ℚ) × List (Option ℚ) :=
  let chunk := frames.getD i []
  let gain := dnrFrameGain periodogram thresholdRatio chunk
  let processedChunk :=
    List.zipWith (fun x w => omul (omul (some x) gain) (some w)) chunk win
  (sliceAdd oadd acc.1 (i * hopSize) processedChunk,
   sliceAdd oadd acc.2 (i * hopSize) (win.map some))

/-- Lines 16-87: `dynamic_noise_reduction(audio, sr, chunk_duration,
overlap_ratio, threshold_ratio)`.  The scipy periodogram and `np.hanning`
(external library calls) are parameters; `np.hanning M` has length `M`.
Sample values are `Option ℚ` because the per-frame gain can be NaN.  The
loop over `range(frames.shape[1])` is a fold of `dnrStep` accumulating
the output buffer and the gain envelope (lines 44-82); line 85 divides by
`np.maximum(gain_envelope, 1e-8)`. -/
def dynamic_noise_reduction (periodogram : List ℚ → List ℚ)
    (hanning : ℕ → List ℚ) (audio : List ℚ)
    (sr chunkDuration overlapRatio thresholdRatio : ℚ) :
    Except String (List (Option ℚ)) :=
  let chunkSize := (chunk_size_of chunkDuration sr).toNat
  let hopSize :=
    (hop_size_of ((chunk_size_of chunkDuration sr : ℤ) : ℚ) overlapRatio).toNat
  match librosaFrame audio chunkSize hopSize with
  | Except.error e => Except.error e
  | Except.ok frames =>
    let acc :=
      (List.range frames.length).foldl
        (dnrStep periodogram thresholdRatio frames (hanning chunkSize) hopSize)
        (List.replicate audio.length (some 0), List.replicate audio.length (some 0))
    Except.ok (List.zipWith (fun p e => odiv p (omax e (1 / 10 ^ 8))) acc.1 acc.2)

/-- Line 44 of `prepro_window.py`: the frame start offsets produced by
`range(0, len(audio) - window_size, hop_length)`.  The range is empty
when the stop `len(audio) - window_size` is not positive; otherwise it
has `ceil(stop / hop)` elements.  A zero hop would raise `ValueError` in
Python; here natural division by zero makes the list empty. -/
def olaStarts (n w h : ℕ) : List ℕ :=
  if n ≤ w then []
  else (List.range ((n - w + h - 1) / h)).map (· * h)

/-- Lines 44-56 of `prepro_window.py`: the body of the frame loop, acting
on the pair (output, norm): extract the frame at offset `i`, apply the
window, overlap-add into `output` and accumulate the window weights into
`norm`. -/
def olaStep (audio : List ℚ) (windowSize : ℕ) (window : List ℚ)
    (acc : List ℚ × List ℚ) (i : ℕ) : List ℚ × List ℚ :=
  let frame := (audio.drop i).take windowSize
  let windowedFrame := List.zipWith (· * ·) frame window
  (sliceAdd (· + ·) acc.1 i windowedFrame, sliceAdd (· + ·) acc.2 i window)

/-- Lines 18-62 of `prepro_window.py`: `process_with_ola`.  The window
array (scipy `hamming`/`hann`/`triang`, lines 36-41, external library) is
a parameter.  Each processed frame is multiplied by the window and
overlap-added into `output` while the window weights accumulate into
`norm`; at the end `output[mask] /= norm[mask]` for `mask = norm > 1e-10`
(lines 58-60). -/
def process_with_ola (audio : List ℚ) (windowSize hopLength : ℕ)
    (window : List ℚ) : List ℚ :=
  let acc := (olaStarts audio.length windowSize hopLength).foldl
    (olaStep audio windowSize window)
    (List.replicate audio.length 0, List.replicate audio.length 0)
  List.zipWith (fun o nrm => if 1 / 10 ^ 10 < nrm then o / nrm else o) acc.1 acc.2

/-- Python exceptions relevant to the batch driver: ordinary `Exception`
subclasses versus `SystemExit` (raised by `sys.exit`), which subclasses
`BaseException` only and is NOT caught by `except Exception`. -/
inductive PyExc where
  | exc : String → PyExc
  | systemExit : ℤ → PyExc
deriving DecidableEq

/-- Lines 24-89 of `prepro_audioseparator.py`: `separate_audio` wraps its
whole body in `try/except Exception` and on ANY failure (invalid input,
non-zero exit code of the external `audio-separator` process, missing
output file) calls `sys.exit(1)`, i.e. raises `SystemExit(1)`. -/
def separate_audio (toolSucceeds : Bool) : Except PyExc Unit :=
  if toolSucceeds then Except.ok () else Except.error (PyExc.systemExit 1)

/-- Lines 50-68 of `preprocessing.py`: the body of the per-file pipeline,
which calls `separate_audio` first and then the remaining stages (whose
outcome is the parameter `rest`). -/
def file_pipeline (toolSucceeds : Bool) (rest : Except PyExc Unit) :
    Except PyExc Unit :=
  match separate_audio toolSucceeds with
  | Except.error e => Except.error e
  | Except.ok _ => rest

/-- Lines 38-76 of `preprocessing.py`: `process_single_file` wraps the
pipeline in `try/except Exception`, returning `True` on success and
`False` (after logging) when an `Exception` is raised.  `SystemExit`
escapes the handler. -/
def process_single_file (pipeline : Except PyExc Unit) : Except PyExc Bool :=
  match pipeline with
  | Except.ok _ => Except.ok true
  | Except.error (PyExc.exc _) => Except.ok false
  | Except.error e => Except.error e

/-- One iteration of the batch loop: if an earlier iteration raised an
uncaught exception the loop never ran further; otherwise the next file's
boolean outcome is recorded (the driver logs it and continues). -/
def batchStep (acc : Except PyExc (List Bool)) (p : Except PyExc Unit) :
    Except PyExc (List Bool) :=
  match acc with
  | Except.error e => Except.error e
  | Except.ok flags =>
    match process_single_file p with
    | Except.ok b => Except.ok (flags ++ [b])
    | Except.error e => Except.error e

/-- Lines 107-119 of `preprocessing.py`: the batch loop over the selected
files, calling `process_single_file` on each and logging the boolean
outcome; an uncaught exception aborts the loop. -/
def process_audio_files (pipelines : List (Except PyExc Unit)) :
    Except PyExc (List Bool) :=
  pipelines.foldl batchStep (Except.ok [])

/-- Boolean test for a `SystemExit`-carrying outcome: the only exception
kind that escapes the batch driver's `except Exception` handler. -/
def raisesSystemExit : Except PyExc Unit → Bool
  | Except.error (PyExc.systemExit _) => true
  | _ => false

/-! Helper lemmas about the directional walks. -/

lemma walkUp_mem {arr : List ℚ} {curVal : ℚ} {bin fuel j : ℕ}
    (hj : j ∈ walkUp arr curVal bin fuel) :
    bin ≤ j ∧ j < bin + fuel ∧ j < arr.length := by
  induction fuel generalizing bin curVal with
  | zero => simp [walkUp] at hj
  | succ n ih =>
    rw [walkUp] at hj
    by_cases h : bin < arr.length
    · rw [dif_pos h] at hj
      by_cases hv : curVal < arr.get ⟨bin, h⟩
      · rw [if_pos hv] at hj; simp at hj
      · rw [if_neg hv] at hj
        rcases List.mem_cons.mp hj with rfl | hj'
        · exact ⟨le_refl _, by omega, h⟩
        · obtain ⟨h1, h2, h3⟩ := ih hj'
          exact ⟨by omega, by omega, h3⟩
    · rw [dif_neg h] at hj; simp at hj

lemma walkDown_mem {arr : List ℚ} {curVal : ℚ} {bin : ℤ} {fuel j : ℕ}
    (hj : j ∈ walkDown arr curVal bin fuel) :
    (j : ℤ) ≤ bin ∧ bin < (j : ℤ) + fuel ∧ j < arr.length := by
  induction fuel generalizing bin curVal with
  | zero => simp [walkDown] at hj
  | succ n ih =>
    rw [walkDown] at hj
    by_cases hneg : bin < 0
    · rw [if_pos hneg] at hj; simp at hj
    · rw [if_neg hneg] at hj
      by_cases h : bin.toNat < arr.length
      · rw [dif_pos h] at hj
        by_cases hv : curVal < arr.get ⟨bin.toNat, h⟩
        · rw [if_pos hv] at hj; simp at hj
        · rw [if_neg hv] at hj
          rcases List.mem_cons.mp hj with rfl | hj'
          · exact ⟨by omega, by omega, h⟩
          · obtain ⟨h1, h2, h3⟩ := ih hj'
            exact ⟨by omega, by omega, h3⟩
      · rw [dif_neg h] at hj; simp at hj

lemma self_mem_walkUp {arr : List ℚ} {curVal : ℚ} {bin fuel : ℕ}
    (hf : 0 < fuel) (h : bin < arr.length) (hle : arr.get ⟨bin, h⟩ ≤ curVal) :
    bin ∈ walkUp arr curVal bin fuel := by
  obtain ⟨n, rfl⟩ : ∃ n, fuel = n + 1 := ⟨fuel - 1, by omega⟩
  rw [walkUp, dif_pos h, if_neg (not_lt.mpr hle)]
  exact List.mem_cons_self _ _

lemma walkUp_val_le {arr : List ℚ} {curVal : ℚ} {bin fuel j : ℕ}
    (hj : j ∈ walkUp arr curVal bin fuel) :
    arr.getD j 0 ≤ curVal := by
  induction fuel generalizing bin curVal with
  | zero => simp [walkUp] at hj
  | succ n ih =>
    rw [walkUp] at hj
    by_cases h : bin < arr.length
    · rw [dif_pos h] at hj
      by_cases hv : curVal < arr.get ⟨bin, h⟩
      · rw [if_pos hv] at hj; simp at hj
      · rw [if_neg hv] at hj
        rcases List.mem_cons.mp hj with rfl | hj'
        · rw [List.getD_eq_get arr 0 h]
          exact not_lt.mp hv
        · exact (ih hj').trans (not_lt.mp hv)
    · rw [dif_neg h] at hj; simp at hj

lemma walkUp_anti {arr : List ℚ} {curVal : ℚ} {bin fuel j k : ℕ}
    (hj : j ∈ walkUp arr curVal bin fuel) (hk : k ∈ walkUp arr curVal bin fuel)
    (hjk : j ≤ k) : arr.getD k 0 ≤ arr.getD j 0 := by
  induction fuel generalizing bin curVal with
  | zero => simp [walkUp] at hj
  | succ n ih =>
    rw [walkUp] at hj hk
    by_cases h : bin < arr.length
    · rw [dif_pos h] at hj hk
      by_cases hv : curVal < arr.get ⟨bin, h⟩
      · rw [if_pos hv] at hj; simp at hj
      · rw [if_neg hv] at hj hk
        rcases List.mem_cons.mp hj with rfl | hj'
        · rcases List.mem_cons.mp hk with rfl | hk'
          · exact le_refl _
          · rw [List.getD_eq_get arr 0 h]
            exact walkUp_val_le hk'
        · have hbj : bin + 1 ≤ j := (walkUp_mem hj').1
          rcases List.mem_cons.mp hk with rfl | hk'
          · omega
          · exact ih hj' hk'
    · rw [dif_neg h] at hj; simp at hj

lemma walkDown_val_le {arr : List ℚ} {curVal : ℚ} {bin : ℤ} {fuel j : ℕ}
    (hj : j ∈ walkDown arr curVal bin fuel) :
    arr.getD j 0 ≤ curVal := by
  induction fuel generalizing bin curVal with
  | zero => simp [walkDown] at hj
  | succ n ih =>
    rw [walkDown] at hj
    by_cases hneg : bin < 0
    · rw [if_pos hneg] at hj; simp at hj
    · rw [if_neg hneg] at hj
      by_cases h : bin.toNat < arr.length
      · rw [dif_pos h] at hj
        by_cases hv : curVal < arr.get ⟨bin.toNat, h⟩
        · rw [if_pos hv] at hj; simp at hj
        · rw [if_neg hv] at hj
          rcases List.mem_cons.mp hj with rfl | hj'
          · rw [List.getD_eq_get arr 0 h]
            exact not_lt.mp hv
          · exact (ih hj').trans (not_lt.mp hv)
      · rw [dif_neg h] at hj; simp at hj

lemma walkDown_anti {arr : List ℚ} {curVal : ℚ} {bin : ℤ} {fuel j k : ℕ}
    (hj : j ∈ walkDown arr curVal bin fuel) (hk : k ∈ walkDown arr curVal bin fuel)
    (hkj : k ≤ j) : arr.getD k 0 ≤ arr.getD j 0 := by
  induction fuel generalizing bin curVal with
  | zero => simp [walkDown] at hj
  | succ n ih =>
    rw [walkDown] at hj hk
    by_cases hneg : bin < 0
    · rw [if_pos hneg] at hj; simp at hj
    · rw [if_neg hneg] at hj hk
      by_cases h : bin.toNat < arr.length
      · rw [dif_pos h] at hj hk
        by_cases hv : curVal < arr.get ⟨bin.toNat, h⟩
        · rw [if_pos hv] at hj; simp at hj
        · rw [if_neg hv] at hj hk
          rcases List.mem_cons.mp hj with rfl | hj'
          · rcases List.mem_cons.mp hk with rfl | hk'
            · exact le_refl _
            · rw [List.getD_eq_get arr 0 h]
              exact walkDown_val_le hk'
          · have hbj : (j : ℤ) ≤ bin - 1 := (walkDown_mem hj').1
            rcases List.mem_cons.mp hk with rfl | hk'
            · omega
            · exact ih hj' hk'
      · rw [dif_neg h] at hj; simp at hj

/-- C4: for a positive (finite) threshold, the per-frame gain is 1.0 when
chunk_rms exceeds the threshold and (chunk_rms / threshold)^2 otherwise;
the gain always lies in [0, 1], and when chunk_rms equals the threshold
the strict `>` comparison sends execution to the attenuation branch,
which then evaluates to exactly 1.0. -/
theorem C4_gain_rule_and_range (chunkRms threshold : ℚ)
    (hr : 0 ≤ chunkRms) (ht : 0 < threshold) :
    (threshold < chunkRms → computeGain chunkRms threshold = 1) ∧
    (chunkRms ≤ threshold →
      computeGain chunkRms threshold = (chunkRms / threshold) ^ 2) ∧
    0 ≤ computeGain chunkRms threshold ∧ computeGain chunkRms threshold ≤ 1 ∧
    (chunkRms = threshold → computeGain chunkRms threshold = 1) := by
  unfold computeGain
  by_cases hc : threshold < chunkRms
  · rw [if_pos hc]
    exact ⟨fun _ => rfl, fun hle => absurd hc (not_lt.mpr hle), by norm_num,
      le_refl 1, fun he => absurd hc (by rw [he]; exact lt_irrefl _)⟩
  · rw [if_neg hc]
    push_neg at hc
    have hdiv1 : chunkRms / threshold ≤ 1 := (div_le_one ht).mpr hc
    have hdiv0 : 0 ≤ chunkRms / threshold := div_nonneg hr ht.le
    refine ⟨fun hlt => absurd hlt (not_lt.mpr hc), fun _ => rfl,
      pow_nonneg hdiv0 2, pow_le_one₀ hdiv0 hdiv1, ?_⟩
    intro he
    rw [he, div_self ht.ne', one_pow]

/-- C4 witness: at chunk_rms = 1, threshold = 2 the hypotheses hold and
the gain is within [0, 1]. -/
theorem C4_witness :
    0 ≤ (1 : ℚ) ∧ (0 : ℚ) < 2 ∧
    0 ≤ computeGain 1 2 ∧ computeGain 1 2 ≤ 1 :=
  ⟨by norm_num, by norm_num,
   (C4_gain_rule_and_range 1 2 (by norm_num) (by norm_num)).2.2.1,
   (C4_gain_rule_and_range 1 2 (by norm_num) (by norm_num)).2.2.2.1⟩

/-- C6 counterexample: the code derives `chunk_size = int(chunk_duration * sr)`
with Python `int()`, which truncates toward zero, not round-to-nearest as
the claim states.  At `chunk_duration = 1/32` (the exactly representable
float 0.03125) and `sr = 44215` the product is 1381.71875: `int()` gives
1381 while rounding to the nearest integer gives 1382. -/
theorem C6_counterexample :
    chunk_size_of (1 / 32) 44215 = 1381 ∧
    specRoundNearest ((1 / 32 : ℚ) * 44215) = 1382 ∧
    (1381 : ℤ) ≠ 1382 := by
  refine ⟨?_, ?_, by decide⟩
  · show pyInt ((1 / 32 : ℚ) * 44215) = 1381
    rw [pyInt, if_pos (by norm_num)]
    rw [show ((1 / 32 : ℚ) * 44215) = 44215 / 32 by norm_num]
    rw [Int.floor_eq_iff]
    norm_num
  · rw [specRoundNearest, round_eq,
      show ((1 / 32 : ℚ) * 44215) = 44215 / 32 by norm_num]
    rw [show (44215 / 32 : ℚ) + 1 / 2 = 44231 / 32 by norm_num]
    rw [Int.floor_eq_iff]
    norm_num

/-- C6 amended: `dynamic_noise_reduction` derives
`chunk_size = int(chunk_duration * sr)` and
`hop_size = int(chunk_size * (1 - overlap_ratio))`, truncating toward
zero (for a nonnegative product, the greatest integer not exceeding it),
not rounding to the nearest integer. -/
theorem C6_sizes_truncate (chunkDuration sr overlapRatio : ℚ)
    (h1 : 0 ≤ chunkDuration * sr)
    (h2 : 0 ≤ (chunk_size_of chunkDuration sr : ℚ) * (1 - overlapRatio)) :
    ((chunk_size_of chunkDuration sr : ℚ) ≤ chunkDuration * sr ∧
      chunkDuration * sr < (chunk_size_of chunkDuration sr : ℚ) + 1) ∧
    ((hop_size_of (chunk_size_of chunkDuration sr : ℚ) overlapRatio : ℚ) ≤
        (chunk_size_of chunkDuration sr : ℚ) * (1 - overlapRatio) ∧
      (chunk_size_of chunkDuration sr : ℚ) * (1 - overlapRatio) <
        (hop_size_of (chunk_size_of chunkDuration sr : ℚ) overlapRatio : ℚ) + 1) := by
  have key : ∀ q : ℚ, 0 ≤ q → ((pyInt q : ℤ) : ℚ) ≤ q ∧ q < ((pyInt q : ℤ) : ℚ) + 1 := by
    intro q hq
    rw [pyInt, if_pos hq]
    exact ⟨Int.floor_le q, Int.lt_floor_add_one q⟩
  exact ⟨key _ h1, key _ h2⟩

/-- C6 witness: the truncation bounds hold at chunk_duration = 1/32,
sr = 44215, overlap_ratio = 1/2. -/
theorem C6_witness :
    (chunk_size_of (1 / 32) 44215 : ℚ) ≤ (1 / 32 : ℚ) * 44215 ∧
    (1 / 32 : ℚ) * 44215 < (chunk_size_of (1 / 32) 44215 : ℚ) + 1 :=
  (C6_sizes_truncate (1 / 32) 44215 (1 / 2) (by norm_num) (by
    have h : chunk_size_of (1 / 32) 44215 = 1381 := by
      show pyInt ((1 / 32 : ℚ) * 44215) = 1381
      rw [pyInt, if_pos (by norm_num),
        show ((1 / 32 : ℚ) * 44215) = 44215 / 32 by norm_num, Int.floor_eq_iff]
      norm_num
    rw [h]; norm_num)).1

/-- C10: for every array and every valid peak index,
`get_indices_around_peak` (default search width 1000) includes the peak
index itself, because both directional walks accept the peak at step
zero under the strict stopping comparison. -/
theorem C10_peak_always_included (arr : List ℚ) (peakIndex : ℕ)
    (h : peakIndex < arr.length) :
    ∃ s, get_indices_around_peak arr peakIndex = some s ∧ peakIndex ∈ s := by
  rw [get_indices_around_peak, dif_pos h]
  refine ⟨_, rfl, Finset.mem_union_left _ ?_⟩
  rw [List.mem_toFinset]
  exact self_mem_walkUp (by norm_num) h (le_refl _)

/-- C10 witness: in [5, 1, 5] the peak index 1 has both immediate
neighbors strictly greater, and it is still returned. -/
theorem C10_witness :
    1 < ([5, 1, 5] : List ℚ).length ∧
    ∃ s, get_indices_around_peak [5, 1, 5] 1 = some s ∧ 1 ∈ s :=
  ⟨by norm_num, C10_peak_always_included [5, 1, 5] 1 (by norm_num)⟩

/-- C8: for a non-empty non-negative spectrum, valid peak index and
positive search width, `get_indices_around_peak` returns a set (no
error); every returned index is within the array bounds and strictly
fewer than search_width steps from the peak index in each direction; at
a boundary peak, the walk in that direction yields no index beyond the
peak. -/
theorem C8_bounds_and_boundaries (arr : List ℚ) (peakIndex searchWidth : ℕ)
    (hne : arr ≠ []) (hnn : ∀ x ∈ arr, 0 ≤ x)
    (hpk : peakIndex < arr.length) (hw : 0 < searchWidth) :
    ∃ s, get_indices_around_peak arr peakIndex searchWidth = some s ∧
      (∀ j ∈ s, j < arr.length ∧ j < peakIndex + searchWidth ∧
        peakIndex < j + searchWidth) ∧
      (peakIndex = 0 → ∀ j ∈ s, peakIndex ≤ j) ∧
      (peakIndex = arr.length - 1 → ∀ j ∈ s, j ≤ peakIndex) := by
  rw [get_indices_around_peak, dif_pos hpk]
  refine ⟨_, rfl, ?_, ?_, ?_⟩
  · intro j hj
    rcases Finset.mem_union.mp hj with hj | hj <;> rw [List.mem_toFinset] at hj
    · obtain ⟨h1, h2, h3⟩ := walkUp_mem hj
      exact ⟨h3, h2, by omega⟩
    · obtain ⟨h1, h2, h3⟩ := walkDown_mem hj
      exact ⟨h3, by omega, by omega⟩
  · rintro rfl j hj
    exact Nat.zero_le j
  · intro hlast j hj
    rcases Finset.mem_union.mp hj with hj | hj <;> rw [List.mem_toFinset] at hj
    · obtain ⟨h1, h2, h3⟩ := walkUp_mem hj
      omega
    · obtain ⟨h1, h2, h3⟩ := walkDown_mem hj
      omega

/-- C8 witness: the bound and boundary properties hold for the spectrum
[0, 2, 1] at peak index 1 with search width 3. -/
theorem C8_witness :
    ([0, 2, 1] : List ℚ) ≠ [] ∧
    ∃ s, get_indices_around_peak [0, 2, 1] 1 3 = some s ∧
      (∀ j ∈ s, j < ([0, 2, 1] : List ℚ).length ∧ j < 1 + 3 ∧ 1 < j + 3) ∧
      ((1 : ℕ) = 0 → ∀ j ∈ s, 1 ≤ j) ∧
      ((1 : ℕ) = ([0, 2, 1] : List ℚ).length - 1 → ∀ j ∈ s, j ≤ 1) :=
  ⟨by simp,
   C8_bounds_and_boundaries [0, 2, 1] 1 3 (by simp)
     (by intro x hx; fin_cases hx <;> norm_num) (by norm_num) (by norm_num)⟩

/-- C7: for every non-empty spectrum and valid peak index,
`get_indices_around_peak` includes the peak index (hence the peak or the
first strictly-lower neighbor on at least one side), and along each
directional walk the spectrum values are monotonically non-increasing
moving away from the peak: no returned index has a value strictly
greater than a bin closer to the peak on the same side. -/
theorem C7_monotonic_skirt (arr : List ℚ) (peakIndex : ℕ)
    (hne : arr ≠ []) (hpk : peakIndex < arr.length) :
    ∃ s, get_indices_around_peak arr peakIndex = some s ∧
      peakIndex ∈ s ∧
      (∀ j k, j ∈ s → k ∈ s → peakIndex ≤ j → j ≤ k →
        arr.getD k 0 ≤ arr.getD j 0) ∧
      (∀ j k, j ∈ s → k ∈ s → k ≤ j → j ≤ peakIndex →
        arr.getD k 0 ≤ arr.getD j 0) := by
  rw [get_indices_around_peak, dif_pos hpk]
  have hpeakD : arr.getD peakIndex 0 = arr.get ⟨peakIndex, hpk⟩ :=
    List.getD_eq_get arr 0 hpk
  refine ⟨_, rfl, Finset.mem_union_left _ (by
    rw [List.mem_toFinset]; exact self_mem_walkUp (by norm_num) hpk (le_refl _)), ?_, ?_⟩
  · intro j k hj hk hpj hjk
    rcases Finset.mem_union.mp hk with hk | hk <;> rw [List.mem_toFinset] at hk
    · rcases Finset.mem_union.mp hj with hj | hj <;> rw [List.mem_toFinset] at hj
      · exact walkUp_anti hj hk hjk
      · have hjle : j ≤ peakIndex := by
          have := (walkDown_mem hj).1; omega
        have hjp : j = peakIndex := le_antisymm hjle hpj
        subst hjp
        rw [hpeakD]
        exact walkUp_val_le hk
    · have hkle : k ≤ peakIndex := by
        have := (walkDown_mem hk).1; omega
      have hjp : j = peakIndex := le_antisymm (hjk.trans hkle) hpj
      have hkp : k = peakIndex := le_antisymm hkle (hjp ▸ hjk)
      rw [hjp, hkp]
  · intro j k hj hk hkj hjp
    rcases Finset.mem_union.mp hk with hk | hk <;> rw [List.mem_toFinset] at hk
    · have hkge : peakIndex ≤ k := (walkUp_mem hk).1
      have hjeq : j = peakIndex := le_antisymm hjp (hkge.trans hkj)
      have hkeq : k = peakIndex := le_antisymm (hkj.trans hjp) hkge
      rw [hjeq, hkeq]
    · rcases Finset.mem_union.mp hj with hj | hj <;> rw [List.mem_toFinset] at hj
      · have hjge : peakIndex ≤ j := (walkUp_mem hj).1
        have hjeq : j = peakIndex := le_antisymm hjp hjge
        subst hjeq
        rw [hpeakD]
        exact walkDown_val_le hk
      · exact walkDown_anti hj hk hkj

/-- C7 witness: the skirt properties hold for the spectrum
[1, 3, 7, 4, 4, 2, 5] at peak index 2. -/
theorem C7_witness :
    ([1, 3, 7, 4, 4, 2, 5] : List ℚ) ≠ [] ∧
    ∃ s, get_indices_around_peak [1, 3, 7, 4, 4, 2, 5] 2 = some s ∧
      2 ∈ s ∧
      (∀ j k, j ∈ s → k ∈ s → 2 ≤ j → j ≤ k →
        ([1, 3, 7, 4, 4, 2, 5] : List ℚ).getD k 0 ≤
          ([1, 3, 7, 4, 4, 2, 5] : List ℚ).getD j 0) ∧
      (∀ j k, j ∈ s → k ∈ s → k ≤ j → j ≤ 2 →
        ([1, 3, 7, 4, 4, 2, 5] : List ℚ).getD k 0 ≤
          ([1, 3, 7, 4, 4, 2, 5] : List ℚ).getD j 0) :=
  ⟨by simp, C7_monotonic_skirt [1, 3, 7, 4, 4, 2, 5] 2 (by simp) (by norm_num)⟩

/-! Helper lemmas for the orchestrator, the OLA reconstructor and the
batch driver. -/

lemma pyInt_eq {q : ℚ} {z : ℤ} (h0 : 0 ≤ q) (hl : (z : ℚ) ≤ q)
    (hu : q < z + 1) : pyInt q = z := by
  rw [pyInt, if_pos h0, Int.floor_eq_iff]
  exact ⟨hl, hu⟩

lemma mapIdx_replicate_zero (n : ℕ) (f : ℕ → ℚ → ℚ) (hf : ∀ i, f i 0 = 0) :
    (List.replicate n (0 : ℚ)).mapIdx f = List.replicate n 0 := by
  induction n generalizing f with
  | zero => rfl
  | succ m ih =>
    rw [List.replicate_succ, List.mapIdx_cons, hf 0,
      ih _ (fun i => hf (i + 1))]

lemma sliceAdd_length {α : Type} (add : α → α → α) (out : List α) (start : ℕ)
    (vals : List α) : (sliceAdd add out start vals).length = out.length := by
  simp [sliceAdd]

lemma foldl_pair_lengths {α β : Type}
    (step : (List α × List α) → β → (List α × List α))
    (hstep : ∀ acc b, (step acc b).1.length = acc.1.length ∧
      (step acc b).2.length = acc.2.length)
    (l : List β) (acc : List α × List α) :
    (l.foldl step acc).1.length = acc.1.length ∧
    (l.foldl step acc).2.length = acc.2.length := by
  induction l generalizing acc with
  | nil => exact ⟨rfl, rfl⟩
  | cons b bs ih =>
    rw [List.foldl_cons]
    obtain ⟨h1, h2⟩ := ih (step acc b)
    exact ⟨by rw [h1, (hstep acc b).1], by rw [h2, (hstep acc b).2]⟩

lemma dnrStep_lengths (periodogram : List ℚ → List ℚ) (thresholdRatio : ℚ)
    (frames : List (List ℚ)) (win : List ℚ) (hopSize : ℕ)
    (acc : List (Option ℚ) × List (Option ℚ)) (i : ℕ) :
    (dnrStep periodogram thresholdRatio frames win hopSize acc i).1.length =
      acc.1.length ∧
    (dnrStep periodogram thresholdRatio frames win hopSize acc i).2.length =
      acc.2.length :=
  ⟨sliceAdd_length _ _ _ _, sliceAdd_length _ _ _ _⟩

lemma batch_foldl_ok (l : List (Except PyExc Unit)) (flags : List Bool)
    (hexc : ∀ p ∈ l, raisesSystemExit p = false) :
    ∃ flags2, l.foldl batchStep (Except.ok flags) = Except.ok flags2 ∧
      flags2.length = flags.length + l.length := by
  induction l generalizing flags with
  | nil => exact ⟨flags, rfl, by simp⟩
  | cons p ps ih =>
    have hp := hexc p (List.mem_cons_self p ps)
    have hps : ∀ q ∈ ps, raisesSystemExit q = false :=
      fun q hq => hexc q (List.mem_cons_of_mem p hq)
    have hone : ∃ b, batchStep (Except.ok flags) p = Except.ok (flags ++ [b]) := by
      match p with
      | Except.ok _ => exact ⟨true, rfl⟩
      | Except.error (PyExc.exc s) => exact ⟨false, rfl⟩
      | Except.error (PyExc.systemExit z) => simp [raisesSystemExit] at hp
    obtain ⟨b, hb⟩ := hone
    rw [List.foldl_cons, hb]
    obtain ⟨flags2, h1, h2⟩ := ih (flags ++ [b]) hps
    exact ⟨flags2, h1, by simp at h2; simp [h2]; omega⟩

lemma batch_foldl_error (l : List (Except PyExc Unit)) (e : PyExc) :
    l.foldl batchStep (Except.error e) = Except.error e := by
  induction l with
  | nil => rfl
  | cons p ps ih => rw [List.foldl_cons]; exact ih

/-- C1 (actual code behavior on the claimed input): for an all-zero
frame the periodogram is all-zero and `mean(chunk**2) = 0`; the argmax
neighborhood zeroes the whole spectrum (or at worst leaves only zero
bins), the non-zero selection `noise_prepared[noise_prepared != 0]` is
empty, `np.median` of an empty array is NaN, and NaN propagates through
`noise_floor`, `threshold` and the gain: the gain is NaN, not the claimed
1.0 — the code has no zero-threshold guard. -/
theorem C1_silent_frame_gain_nan (periodogram : List ℚ → List ℚ) (n m : ℕ)
    (hn : 0 < n) (hm : 0 < m) (thresholdRatio : ℚ)
    (hpg : periodogram (List.replicate n 0) = List.replicate m 0) :
    dnrFrameGain periodogram thresholdRatio (List.replicate n 0) = none := by
  unfold dnrFrameGain
  rw [hpg]
  have hms : meanSquare (List.replicate n (0 : ℚ)) = 0 := by
    simp [meanSquare]
  rw [hms]
  unfold frameGainSq
  cases hg : get_indices_around_peak (List.replicate m 0)
      (npArgmax (List.replicate m 0)) with
  | none => rfl
  | some s =>
    rw [Option.some_bind]
    have hz : zeroAtIndices (List.replicate m 0) s = List.replicate m 0 := by
      unfold zeroAtIndices
      exact mapIdx_replicate_zero m _ (fun i => by by_cases h : i ∈ s <;> simp [h])
    have hfil : (List.replicate m (0 : ℚ)).filter (· ≠ 0) = [] := by
      rw [List.filter_eq_nil_iff]
      intro a ha
      simp [List.eq_of_mem_replicate ha]
    rw [hz, hfil]
    rfl

/-- C1 witness: a concrete silent frame of four samples whose
periodogram has three (zero) bins yields a NaN gain. -/
theorem C1_witness :
    (0 : ℕ) < 4 ∧ (0 : ℕ) < 3 ∧
    dnrFrameGain (fun _ => List.replicate 3 0) 2 (List.replicate 4 0) = none :=
  ⟨by norm_num, by norm_num,
   C1_silent_frame_gain_nan (fun _ => List.replicate 3 0) 4 3
     (by norm_num) (by norm_num) 2 rfl⟩

/-- C2 (actual code behavior): for an input strictly shorter than one
frame, `librosa.util.frame` raises `ParameterError` ("Input is too
short"), which `dynamic_noise_reduction` does not catch: the call raises
instead of returning a defined output of the input's length. -/
theorem C2_short_input_raises (periodogram : List ℚ → List ℚ)
    (hanning : ℕ → List ℚ) (audio : List ℚ)
    (sr chunkDuration overlapRatio thresholdRatio : ℚ)
    (hshort : audio.length < (chunk_size_of chunkDuration sr).toNat) :
    dynamic_noise_reduction periodogram hanning audio sr chunkDuration
      overlapRatio thresholdRatio =
      Except.error "librosa.util.frame: input is too short" := by
  simp only [dynamic_noise_reduction]
  rw [librosaFrame, if_pos (Or.inl hshort)]

/-- C2 witness: a 2-sample signal at sr = 8 with chunk_duration = 1/2
(chunk_size = 4) makes the call raise. -/
theorem C2_witness :
    dynamic_noise_reduction (fun _ => []) (fun M => List.replicate M 1)
      [1, 2] 8 (1 / 2) (1 / 2) 2 =
      Except.error "librosa.util.frame: input is too short" :=
  C2_short_input_raises _ _ [1, 2] 8 (1 / 2) (1 / 2) 2 (by
    have h : chunk_size_of (1 / 2) 8 = 4 :=
      pyInt_eq (by norm_num) (by norm_num) (by norm_num)
    rw [h]; norm_num)

/-- C5: for every signal of length at least one frame (with the derived
chunk and hop sizes positive, as with the default parameters), the
output of `dynamic_noise_reduction` has exactly the length of the input
signal. -/
theorem C5_output_length_eq_input (periodogram : List ℚ → List ℚ)
    (hanning : ℕ → List ℚ) (audio : List ℚ)
    (sr chunkDuration overlapRatio thresholdRatio : ℚ)
    (hcs : 0 < (chunk_size_of chunkDuration sr).toNat)
    (hhs : 0 < (hop_size_of ((chunk_size_of chunkDuration sr : ℤ) : ℚ)
      overlapRatio).toNat)
    (hlen : (chunk_size_of chunkDuration sr).toNat ≤ audio.length) :
    ∃ out, dynamic_noise_reduction periodogram hanning audio sr chunkDuration
      overlapRatio thresholdRatio = Except.ok out ∧
      out.length = audio.length := by
  simp only [dynamic_noise_reduction]
  rw [librosaFrame, if_neg (by omega), if_neg (by omega)]
  refine ⟨_, rfl, ?_⟩
  obtain ⟨h1, h2⟩ := foldl_pair_lengths
    (dnrStep periodogram thresholdRatio
      ((List.range (1 + (audio.length - (chunk_size_of chunkDuration sr).toNat) /
          (hop_size_of ((chunk_size_of chunkDuration sr : ℤ) : ℚ)
            overlapRatio).toNat)).map
        (fun i => (audio.drop
          (i * (hop_size_of ((chunk_size_of chunkDuration sr : ℤ) : ℚ)
            overlapRatio).toNat)).take (chunk_size_of chunkDuration sr).toNat))
      (hanning (chunk_size_of chunkDuration sr).toNat)
      (hop_size_of ((chunk_size_of chunkDuration sr : ℤ) : ℚ) overlapRatio).toNat)
    (dnrStep_lengths periodogram thresholdRatio _ _ _)
    (List.range (1 + (audio.length - (chunk_size_of chunkDuration sr).toNat) /
      (hop_size_of ((chunk_size_of chunkDuration sr : ℤ) : ℚ) overlapRatio).toNat))
    (List.replicate audio.length (some 0), List.replicate audio.length (some 0))
  simp only [List.length_replicate] at h1 h2
  simp [List.length_zipWith, h1, h2]

/-- C5 witness: a 4-sample signal at sr = 4 with chunk_duration = 1/2
(chunk_size = 2, hop_size = 1) yields an output of length 4. -/
theorem C5_witness :
    ∃ out, dynamic_noise_reduction (fun _ => []) (fun M => List.replicate M 1)
      [1, 2, 3, 4] 4 (1 / 2) (1 / 2) 2 = Except.ok out ∧
      out.length = ([1, 2, 3, 4] : List ℚ).length := by
  have hcs : chunk_size_of (1 / 2) 4 = 2 :=
    pyInt_eq (by norm_num) (by norm_num) (by norm_num)
  refine C5_output_length_eq_input _ _ [1, 2, 3, 4] 4 (1 / 2) (1 / 2) 2
    (by rw [hcs]; norm_num) ?_ (by rw [hcs]; norm_num)
  rw [hcs]
  have hhop : hop_size_of ((2 : ℤ) : ℚ) (1 / 2) = 1 :=
    pyInt_eq (by norm_num) (by norm_num) (by norm_num)
  rw [hhop]
  norm_num

/-- C9: the loop `for i in range(0, len(audio) - window_size, hop_length)`
has an exclusive stop, so the frame starting at `len(audio) - window_size`
is never processed although it fits inside the signal; in particular for
an input whose length equals the window size no frame is processed and
the output is all zeros. -/
theorem C9_last_frame_never_processed :
    (∀ n w h : ℕ, w ≤ n → (n - w) ∉ olaStarts n w h) ∧
    (∀ (audio : List ℚ) (w h : ℕ) (window : List ℚ), audio.length = w →
      process_with_ola audio w h window = List.replicate audio.length 0) := by
  constructor
  · intro n w h hwn hmem
    rw [olaStarts] at hmem
    by_cases hle : n ≤ w
    · rw [if_pos hle] at hmem
      exact (List.not_mem_nil _) hmem
    · rw [if_neg hle] at hmem
      obtain ⟨k, hk, hkeq⟩ := List.mem_map.mp hmem
      rw [List.mem_range] at hk
      rcases Nat.eq_zero_or_pos h with rfl | hpos
      · simp at hk
      · have hb : (k + 1) * h ≤ n - w + h - 1 :=
          le_trans (Nat.mul_le_mul_right h hk) (Nat.div_mul_le_self _ _)
        have hb' : k * h + h = (k + 1) * h := by ring
        omega
  · intro audio w h window hlen
    simp only [process_with_ola]
    rw [olaStarts, if_pos (le_of_eq hlen), List.foldl_nil]
    rw [List.zipWith_replicate']
    have : (if (1 : ℚ) / 10 ^ 10 < 0 then (0 : ℚ) / 0 else 0) = 0 := by
      norm_num
    rw [this]

/-- C9 witness: with a 4-sample signal and window size 4, the offset 0
(= len - window) is not processed and the output is all zeros. -/
theorem C9_witness :
    (4 : ℕ) ≤ 4 ∧ ((4 : ℕ) - 4) ∉ olaStarts 4 4 2 ∧
    process_with_ola [1, 2, 3, 4] 4 2 [1, 1, 1, 1] = List.replicate 4 0 :=
  ⟨le_refl 4, C9_last_frame_never_processed.1 4 4 2 (le_refl 4),
   C9_last_frame_never_processed.2 [1, 2, 3, 4] 4 2 [1, 1, 1, 1] rfl⟩

/-- C3 counterexample: with two files where the external
vocal-separation tool fails on the first, the batch run aborts with
`SystemExit(1)` before the second file is processed — the claim that the
driver "never aborts the whole run on one file's failure" is false for
external-tool failures. -/
theorem C3_counterexample :
    process_audio_files
      [file_pipeline false (Except.ok ()), file_pipeline true (Except.ok ())] =
      Except.error (PyExc.systemExit 1) := rfl

/-- C3 amended: a per-file failure raising an ordinary `Exception` is
caught by `process_single_file`, logged, and the batch continues with the
remaining files (one outcome flag per file); but a failure of the
external vocal-separation tool makes `separate_audio` call
`sys.exit(1)`, raising `SystemExit`, which `except Exception` does not
catch, so the whole run aborts at that file. -/
theorem C3_batch_exception_tolerance (pipelines pre post : List (Except PyExc Unit))
    (rest : Except PyExc Unit)
    (hexc : ∀ p ∈ pipelines, raisesSystemExit p = false)
    (hpre : ∀ p ∈ pre, raisesSystemExit p = false) :
    (∃ flags, process_audio_files pipelines = Except.ok flags ∧
      flags.length = pipelines.length) ∧
    process_audio_files (pre ++ file_pipeline false rest :: post) =
      Except.error (PyExc.systemExit 1) := by
  constructor
  · obtain ⟨flags2, h1, h2⟩ := batch_foldl_ok pipelines [] hexc
    exact ⟨flags2, h1, by simpa using h2⟩
  · unfold process_audio_files
    rw [List.foldl_append]
    obtain ⟨flags2, h1, _⟩ := batch_foldl_ok pre [] hpre
    rw [h1, List.foldl_cons]
    have hbad : batchStep (Except.ok flags2) (file_pipeline false rest) =
        Except.error (PyExc.systemExit 1) := rfl
    rw [hbad]
    exact batch_foldl_error post _

/-- C3 amended witness: a batch of (successful file, ordinary-Exception
file, successful file) completes with three flags, while a batch whose
second file hits a tool failure aborts. -/
theorem C3_witness :
    (∃ flags, process_audio_files
        [file_pipeline true (Except.ok ()), Except.error (PyExc.exc "load failed"),
         file_pipeline true (Except.ok ())] = Except.ok flags ∧
      flags.length = 3) ∧
    process_audio_files
      ([file_pipeline true (Except.ok ())] ++
        file_pipeline false (Except.ok ()) :: [file_pipeline true (Except.ok ())]) =
      Except.error (PyExc.systemExit 1) := by
  have := C3_batch_exception_tolerance
    [file_pipeline true (Except.ok ()), Except.error (PyExc.exc "load failed"),
     file_pipeline true (Except.ok ())]
    [file_pipeline true (Except.ok ())] [file_pipeline true (Except.ok ())]
    (Except.ok ())
    (by intro p hp; fin_cases hp <;> rfl)
    (by intro p hp; fin_cases hp <;> rfl)
  exact ⟨this.1, this.2⟩

end TestRepo
